import Mathlib

/-
Verification development for the neuroforge semantic-retrieval pipeline
(vector_store.py and query.py).  Python strings are embedded as lists of
characters.  Vector entries (float32 in the source) are embedded as the
elements of an arbitrary linearly ordered commutative ring K, so every
theorem below holds in particular for rational- or real-valued vectors;
concrete instances in witnesses use K = Int.  The two external libraries
the source leans on where the claims depend on them (faiss flat
inner-product indexes, pickle) are modelled from their documented behavior.
-/

namespace NeuroForge

/-- A Python string, embedded as its sequence of characters. -/
abbrev Str := List Char

/-- Word counting helper: counts maximal runs of non-whitespace characters,
the length of the list produced by the Python expression s.split().
The flag records whether the scan is currently inside a word. -/
def countWordsAux : Bool → Str → Nat
  | _, [] => 0
  | inWord, c :: cs =>
      if c.isWhitespace then countWordsAux false cs
      else (if inWord then 0 else 1) + countWordsAux true cs

/-- The number of whitespace-separated words of a string: len(s.split()). -/
def wordCount (s : Str) : Nat := countWordsAux false s

/-- Joining a list of strings with a single space: " ".join(ss). -/
def joinSp : List Str → Str
  | [] => []
  | [s] => s
  | s :: s2 :: ss => s ++ ' ' :: joinSp (s2 :: ss)

/-- Python s.strip(): remove leading and trailing whitespace. -/
def pyStrip (s : Str) : Str :=
  ((s.dropWhile Char.isWhitespace).reverse.dropWhile Char.isWhitespace).reverse

/-- The Python slice l[-n:].  For n greater than 0 this is the suffix of the
last min n (length l) elements; for n = 0 the slice l[-0:] is l[0:], the
whole list (the quirk vector_store.py line 61 inherits). -/
def pySliceLast (n : Nat) (l : List α) : List α :=
  if n = 0 then l else l.drop (l.length - n)

/-- Loop state of VectorStore.chunk_text: the chunks emitted so far (already
joined with spaces, as the source appends " ".join(current_chunk_sentences)),
the current chunk as a list of sentences, and current_word_count. -/
structure ChunkState where
  chunks : List Str
  cur : List Str
  cnt : Nat
deriving Repr, DecidableEq

/-- One iteration of the sentence loop of VectorStore.chunk_text
(vector_store.py lines 52-65): if adding the sentence would exceed the word
budget and the current chunk is non-empty, emit the joined current chunk,
carry current_chunk_sentences[-overlap_sentences:], and recompute the word
count from the carried subset; then append the sentence either way. -/
def chunkStep (chunk_size overlap_sentences : Nat) (st : ChunkState) (sentence : Str) :
    ChunkState :=
  let swc := wordCount sentence
  if chunk_size < st.cnt + swc ∧ st.cur ≠ [] then
    let carried := pySliceLast overlap_sentences st.cur
    { chunks := st.chunks ++ [joinSp st.cur]
      cur := carried ++ [sentence]
      cnt := wordCount (joinSp carried) + swc }
  else
    { chunks := st.chunks, cur := st.cur ++ [sentence], cnt := st.cnt + swc }

/-- VectorStore.chunk_text (vector_store.py lines 33-71).  Sentence-boundary
detection (nltk sent_tokenize) is an external capability and is passed in as
the function split. -/
def chunk_text (split : Str → List Str) (text : Str)
    (chunk_size overlap_sentences : Nat) : List Str :=
  if text = [] then []
  else
    let sentences := split text
    let st := sentences.foldl (chunkStep chunk_size overlap_sentences) ⟨[], [], 0⟩
    if st.cur ≠ [] then st.chunks ++ [joinSp st.cur] else st.chunks

/-- Ghost state for reasoning about chunk_text: identical to ChunkState but
keeping each emitted chunk as its list of sentences instead of the joined
string. -/
structure ChunkStateS where
  chunks : List (List Str)
  cur : List Str
  cnt : Nat
deriving Repr, DecidableEq

/-- Sentence-level mirror of chunkStep: emits the sentence list itself
rather than its space-join. -/
def chunkStepS (chunk_size overlap_sentences : Nat) (st : ChunkStateS) (sentence : Str) :
    ChunkStateS :=
  let swc := wordCount sentence
  if chunk_size < st.cnt + swc ∧ st.cur ≠ [] then
    let carried := pySliceLast overlap_sentences st.cur
    { chunks := st.chunks ++ [st.cur]
      cur := carried ++ [sentence]
      cnt := wordCount (joinSp carried) + swc }
  else
    { chunks := st.chunks, cur := st.cur ++ [sentence], cnt := st.cnt + swc }

/-- The chunks of chunk_text as sentence lists: chunk_text is the joinSp
image of this sequence (proved below). -/
def chunkRuns (split : Str → List Str) (text : Str)
    (chunk_size overlap_sentences : Nat) : List (List Str) :=
  if text = [] then []
  else
    let sentences := split text
    let st := sentences.foldl (chunkStepS chunk_size overlap_sentences) ⟨[], [], 0⟩
    if st.cur ≠ [] then st.chunks ++ [st.cur] else st.chunks

/-- A JSON-compatible Python value, as manipulated by vector_store.py:
dicts keep insertion order, so objects are ordered association lists. -/
inductive JsonValue where
  | null : JsonValue
  | bool (b : Bool) : JsonValue
  | num (q : ℚ) : JsonValue
  | str (s : Str) : JsonValue
  | arr (items : List JsonValue) : JsonValue
  | obj (fields : List (String × JsonValue)) : JsonValue

mutual

/-- VectorStore._extract_texts (vector_store.py lines 88-103): walk a
JSON-like value; a dict value that is a string is emitted stripped when its
stripped length is at least 40 and discarded otherwise; non-string dict
values and list items are recursed into; all other nodes yield nothing. -/
def extract_texts : JsonValue → List Str
  | JsonValue.obj fields => extractFromFields fields
  | JsonValue.arr items => extractFromItems items
  | _ => []

/-- The dict branch of _extract_texts, iterating obj.items() in order. -/
def extractFromFields : List (String × JsonValue) → List Str
  | [] => []
  | (_, JsonValue.str v) :: rest =>
      (if 40 ≤ (pyStrip v).length then [pyStrip v] else []) ++ extractFromFields rest
  | (_, v) :: rest => extract_texts v ++ extractFromFields rest

/-- The list branch of _extract_texts, iterating elements in order. -/
def extractFromItems : List JsonValue → List Str
  | [] => []
  | v :: rest => extract_texts v ++ extractFromItems rest

end

/-- Python truthiness of a JSON-like value (None, False, 0, and empty
containers and strings are falsy). -/
def pyTruthy : JsonValue → Bool
  | JsonValue.null => false
  | JsonValue.bool b => b
  | JsonValue.num q => decide (q ≠ 0)
  | JsonValue.str s => decide (s ≠ [])
  | JsonValue.arr l => !l.isEmpty
  | JsonValue.obj l => !l.isEmpty

/-- Python dict.get(key): the first binding of the key, None when absent. -/
def dictGet (fields : List (String × JsonValue)) (key : String) : Option JsonValue :=
  (fields.find? fun p => p.1 = key).map fun p => p.2

/-- The source-identifier fallback of process_data line 111, second and
third operands: doc.get('source_url') or 'Unknown URL'. -/
def docUrlFallback (doc : List (String × JsonValue)) : JsonValue :=
  match dictGet doc "source_url" with
  | some v => if pyTruthy v then v else JsonValue.str "Unknown URL".toList
  | none => JsonValue.str "Unknown URL".toList

/-- process_data line 111: url = doc.get('url') or doc.get('source_url') or
'Unknown URL', with Python or returning its left operand when truthy. -/
def docUrl (doc : List (String × JsonValue)) : JsonValue :=
  match dictGet doc "url" with
  | some v => if pyTruthy v then v else docUrlFallback doc
  | none => docUrlFallback doc

/-- A metadata record as built by process_data lines 122-128.  The url field
holds whatever value the source-identifier expression produced (Python would
store a non-string there unchanged). -/
structure MetadataRecord where
  url : JsonValue
  chunk_id : Nat
  total_chunks : Nat
  text_length : Nat
  text : Str

/-- A faiss.IndexFlatIP over vector entries in K: the dimension it was
constructed with and the stored row vectors in insertion order (row id =
position). -/
structure FaissIndex (K : Type) where
  d : Nat
  xb : List (List K)

variable {K : Type} [LinearOrderedCommRing K]

/-- index.ntotal: the number of stored rows. -/
def FaissIndex.ntotal (idx : FaissIndex K) : Nat := idx.xb.length

/-- index.add(vectors): appends rows in order, ids continuing from ntotal. -/
def FaissIndex.add (idx : FaissIndex K) (vs : List (List K)) : FaissIndex K :=
  { idx with xb := idx.xb ++ vs }

/-- The mutable state of a VectorStore object that process_data and
create_index touch: the FAISS index (None until created), the accumulated
chunk texts and the parallel metadata list. -/
structure VectorStore (K : Type) where
  index : Option (FaissIndex K)
  texts : List Str
  metadata : List MetadataRecord

/-- Innermost loop body of process_data (vector_store.py lines 120-128):
append one enumerated chunk to self.texts and one metadata record built
from the document url, the chunk position, the chunk count of the current
text, and the chunk itself. -/
def appendChunk (url : JsonValue) (total_chunks : Nat) (vs : VectorStore K)
    (ic : Nat × Str) : VectorStore K :=
  { vs with
    texts := vs.texts ++ [ic.2]
    metadata := vs.metadata ++ [⟨url, ic.1, total_chunks, ic.2.length, ic.2⟩] }

/-- Middle loop body of process_data (lines 116-128): chunk one raw text
(chunk_text is called with its default overlap of 2 sentences) and append
every enumerated chunk. -/
def processText (split : Str → List Str) (chunk_size : Nat) (url : JsonValue)
    (vs : VectorStore K) (raw_text : Str) : VectorStore K :=
  let chunks := chunk_text split raw_text chunk_size 2
  chunks.enum.foldl (appendChunk url chunks.length) vs

/-- Outer loop body of process_data (lines 109-128): compute the document
source identifier, collect its texts recursively, and process each text. -/
def processDoc (split : Str → List Str) (chunk_size : Nat)
    (vs : VectorStore K) (doc : List (String × JsonValue)) : VectorStore K :=
  let url := docUrl doc
  let doc_texts := extract_texts (JsonValue.obj doc)
  doc_texts.foldl (processText split chunk_size url) vs

/-- VectorStore.process_data (vector_store.py lines 105-130): for each
document take its source identifier, collect its texts recursively, chunk
each text, and append every chunk to self.texts together with one metadata
record. -/
def process_data (split : Str → List Str) (chunk_size : Nat)
    (data : List (List (String × JsonValue))) (vs : VectorStore K) : VectorStore K :=
  data.foldl (processDoc split chunk_size) vs

/-- VectorStore.create_index (vector_store.py lines 132-157): do nothing if
there are no texts; otherwise embed all texts (the sentence-transformer
encoder is the injected EmbeddingProvider capability), L2-normalize the
rows (faiss.normalize_L2, injected as the float operation it is), build an
IndexFlatIP of the embedding width and add all rows. -/
def create_index (encode : List Str → List (List K))
    (normalize_L2 : List (List K) → List (List K)) (vs : VectorStore K) : VectorStore K :=
  if vs.texts = [] then vs
  else
    let embeddings := normalize_L2 (encode vs.texts)
    let dimension := (embeddings.headD []).length
    { vs with index := some (FaissIndex.add ⟨dimension, []⟩ embeddings) }

/-- Modelled from the spec: the persisted index artifact, a self-describing
blob holding the dimension, ntotal and the flat array of ntotal times
dimension vector entries (spec section 6); faiss.write_index and
faiss.read_index are external-library code absent from src. -/
structure SerializedIndex (K : Type) where
  dimension : Nat
  ntotal : Nat
  data : List K

/-- Modelled from the spec: faiss.write_index flattens the stored rows into
the self-describing artifact. -/
def write_index (idx : FaissIndex K) : SerializedIndex K :=
  ⟨idx.d, idx.ntotal, idx.xb.flatten⟩

/-- Recover ntotal rows of the given dimension from a flat array. -/
def splitRows : Nat → Nat → List K → List (List K)
  | 0, _, _ => []
  | n + 1, d, l => l.take d :: splitRows n d (l.drop d)

/-- Modelled from the spec: faiss.read_index reconstructs the index from
the dimension, row count and flat vector data of the artifact. -/
def read_index (s : SerializedIndex K) : FaissIndex K :=
  ⟨s.dimension, splitRows s.ntotal s.dimension s.data⟩

/-- Modelled from the spec: pickle.dump writes a blob from which
pickle.load reproduces the identical metadata record sequence; the blob is
represented by the sequence it encodes. -/
def pickle_dump (m : List MetadataRecord) : List MetadataRecord := m

/-- Modelled from the spec: pickle.load, inverse of pickle_dump. -/
def pickle_load (m : List MetadataRecord) : List MetadataRecord := m

/-- VectorStore.save_index (vector_store.py lines 159-172): nothing is
written when no index exists; otherwise the index artifact and the pickled
metadata are written as a pair. -/
def save_index (vs : VectorStore K) : Option (SerializedIndex K × List MetadataRecord) :=
  vs.index.map fun idx => (write_index idx, pickle_dump vs.metadata)

/-- The state of a QueryEngine object: the loaded index (None until
load_index succeeds) and the loaded metadata list. -/
structure QueryEngine (K : Type) where
  index : Option (FaissIndex K)
  metadata : List MetadataRecord

/-- QueryEngine.load_index (query.py lines 22-38): read the index and the
metadata blob; any exception (such as missing artifacts, modelled as none)
is caught and False is returned; on success both fields are set and True is
returned.  No validation relates the metadata length to the index ntotal. -/
def load_index (stored : Option (SerializedIndex K × List MetadataRecord))
    (qe : QueryEngine K) : QueryEngine K × Bool :=
  match stored with
  | none => (qe, false)
  | some (si, blob) =>
      ({ index := some (read_index si), metadata := pickle_load blob }, true)

/-- Inner product of two vectors (trailing entries of the longer vector do
not contribute, matching a row-times-column product of equal widths). -/
def dot (a b : List K) : K := ((a.zip b).map fun p => p.1 * p.2).sum

/-- Squared L2 norm of a vector. -/
def sqNorm (a : List K) : K := (a.map fun x => x * x).sum

/-- Result ordering of a similarity search: higher score first, equal
scores ordered by ascending row id. -/
def resGE (a b : K × Int) : Prop := b.1 < a.1 ∨ (a.1 = b.1 ∧ a.2 ≤ b.2)

instance : DecidableRel (resGE (K := K)) := fun a b => by unfold resGE; infer_instance

instance : IsTotal (K × Int) resGE where
  total a b := by
    unfold resGE
    rcases lt_trichotomy a.1 b.1 with h | h | h
    · exact Or.inr (Or.inl h)
    · rcases le_total a.2 b.2 with h2 | h2
      · exact Or.inl (Or.inr ⟨h, h2⟩)
      · exact Or.inr (Or.inr ⟨h.symm, h2⟩)
    · exact Or.inl (Or.inl h)

instance : IsTrans (K × Int) resGE where
  trans a b c := by
    unfold resGE
    rintro (h1 | ⟨h1, h1b⟩) (h2 | ⟨h2, h2b⟩)
    · exact Or.inl (h2.trans h1)
    · exact Or.inl (h2 ▸ h1)
    · exact Or.inl (h1 ▸ h2)
    · exact Or.inr ⟨h1.trans h2, h1b.trans h2b⟩

/-- The most negative value a 32-bit float can hold; faiss fills unused
result slots of an inner-product search with this score. -/
def fltLowest : K := -340282346638528859811704183484516925440

/-- Models faiss IndexFlatIP.search for one query vector, per the faiss
documented contract (external-library code absent from src): an exact scan
computes the inner product of the query against every stored row and the k
highest-scoring (score, row id) pairs are returned in decreasing score
order; when k exceeds ntotal the remaining slots are padded with row id -1
and the lowest float score.  Equal scores are ordered by ascending row id
(a modelling choice for the tie order, which faiss leaves unspecified). -/
def FaissIndex.search (idx : FaissIndex K) (q : List K) (k : Nat) : List (K × Int) :=
  let scored : List (K × Int) := idx.xb.enum.map fun p => (dot q p.2, (p.1 : Int))
  let ranked := scored.insertionSort resGE
  let top := ranked.take k
  top ++ List.replicate (k - top.length) (fltLowest, -1)

/-- One result dict of QueryEngine.search lines 63-69.  The dict key text
always resolves metadata[idx].get('text', ...) to the stored text since
every record built by process_data carries one; the display-only text_chunk
formatting string is not modelled. -/
structure SearchResult (K : Type) where
  rank : Nat
  score : K
  metadata : MetadataRecord
  text : Str

/-- Python list subscription l[i] with an int index: non-negative indices
address from the front, negative ones from the back, and an index out of
range on either side raises IndexError (none here). -/
def pyGetIdx (l : List α) (i : Int) : Option α :=
  if 0 ≤ i then l.get? i.toNat
  else if (-i).toNat ≤ l.length then l.get? (l.length - (-i).toNat)
  else none

/-- A Python exception surfacing from the modelled code. -/
inductive PyError where
  | indexError : PyError
deriving Repr, DecidableEq

/-- The result-assembly loop of QueryEngine.search lines 60-71: enumerate
the (score, id) pairs, keep a pair only when idx < len(metadata) (a Python
int comparison that a negative padding id also satisfies), resolve
metadata[idx] with Python subscription semantics, and assign rank i + 1
from the pre-filter enumeration position. -/
def collectResults (metadata : List MetadataRecord) :
    List (Nat × (K × Int)) → Except PyError (List (SearchResult K))
  | [] => Except.ok []
  | (i, (score, ridx)) :: rest =>
      if ridx < (metadata.length : Int) then
        match pyGetIdx metadata ridx with
        | none => Except.error PyError.indexError
        | some m =>
            match collectResults metadata rest with
            | Except.error e => Except.error e
            | Except.ok rs => Except.ok (⟨i + 1, score, m, m.text⟩ :: rs)
      else collectResults metadata rest

/-- QueryEngine.search (query.py lines 40-72): with no index loaded return
the empty list; otherwise embed the query (injected EmbeddingProvider),
L2-normalize it (faiss.normalize_L2 on the 1-row query matrix, injected),
search the index for top_k rows and assemble the result dicts. -/
def QueryEngine.search (encode : Str → List K) (normalize_L2 : List K → List K)
    (qe : QueryEngine K) (query : Str) (top_k : Nat) :
    Except PyError (List (SearchResult K)) :=
  match qe.index with
  | none => Except.ok []
  | some idx =>
      let query_embedding := normalize_L2 (encode query)
      let pairs := idx.search query_embedding top_k
      collectResults qe.metadata pairs.enum

instance [DecidableEq ε] [DecidableEq α] : DecidableEq (Except ε α) := fun a b =>
  match a, b with
  | Except.ok x, Except.ok y =>
      if h : x = y then isTrue (by rw [h]) else isFalse (by simp [h])
  | Except.error x, Except.error y =>
      if h : x = y then isTrue (by rw [h]) else isFalse (by simp [h])
  | Except.ok _, Except.error _ => isFalse (by simp)
  | Except.error _, Except.ok _ => isFalse (by simp)

/-- C1: the claim states that whenever search produces a row id out of
bounds for the metadata sequence, the query raises CorruptIndex and never
silently omits the row.  Counterexample: over an index of 2 rows paired
with a single metadata record, a top-2 search selects rows 0 and 1, row 1
is out of bounds for the metadata, and the query succeeds with that row
silently dropped: one result and no failure of any kind. -/
theorem C1_counterexample :
    (QueryEngine.search (K := Int) (fun _ => [1]) id
        ⟨some ⟨1, [[2], [1]]⟩, [⟨JsonValue.null, 0, 1, 1, ['t']⟩]⟩ ['q'] 2).map
      (List.map fun r => (r.rank, r.score)) = Except.ok [(1, 2)] := by decide

/-- C2: the claim (with the spec) says top_k is clamped to ntotal, so an
index of 5 rows queried with top_k = 10 returns exactly 5 results and a
query against an empty index returns the empty sequence.  The code does
neither: faiss pads the slots beyond ntotal with row id -1 and the lowest
float score, the guard idx < len(metadata) of query.py line 62 accepts -1,
and Python resolves metadata[-1] to the last record.  So the 5-row index
queried with top_k = 10 yields 10 results, the last five duplicating the
final record (chunk_id 4) with the sentinel score, and a query against an
empty loaded index raises IndexError from metadata[-1] on an empty list. -/
theorem C2_unclamped_topk_and_empty_index_error :
    (QueryEngine.search (K := Int) (fun _ => [1]) id
        ⟨some ⟨1, [[5], [4], [3], [2], [1]]⟩,
          (List.range 5).map fun i => ⟨JsonValue.str ['u'], i, 5, 1, ['t']⟩⟩
        ['q'] 10).map (List.map fun r => (r.rank, r.score, r.metadata.chunk_id)) =
      Except.ok [(1, 5, 0), (2, 4, 1), (3, 3, 2), (4, 2, 3), (5, 1, 4),
        (6, fltLowest, 4), (7, fltLowest, 4), (8, fltLowest, 4), (9, fltLowest, 4),
        (10, fltLowest, 4)]
    ∧ (QueryEngine.search (K := Int) (fun _ => [1]) id ⟨some ⟨1, []⟩, []⟩ ['q'] 5).map
        List.length = Except.error PyError.indexError := by decide

/-- C3: the claim states that loading a (index, metadata) pair verifies
len(metadata) = ntotal and fails with CorruptIndex on a mismatch, serving
no query over a mismatched pair.  Counterexample: a pair with ntotal = 2
and an empty metadata sequence loads successfully (True returned), and a
top-1 query is then served over the mismatched pair without any failure. -/
theorem C3_counterexample :
    (load_index (K := Int) (some (⟨1, 2, [2, 1]⟩, [])) ⟨none, []⟩).2 = true
    ∧ ((load_index (K := Int) (some (⟨1, 2, [2, 1]⟩, [])) ⟨none, []⟩).1.index.map
        FaissIndex.ntotal) = some 2
    ∧ (load_index (K := Int) (some (⟨1, 2, [2, 1]⟩, [])) ⟨none, []⟩).1.metadata.length = 0
    ∧ (QueryEngine.search (fun _ => [1]) id
        (load_index (K := Int) (some (⟨1, 2, [2, 1]⟩, [])) ⟨none, []⟩).1 ['q'] 1).map
        List.length = Except.ok 0 := by decide

/-- C5: the claim states that when a chunk is emitted the new current chunk
is exactly the last overlap_sentences sentences of the emitted chunk, and
none of them when overlap_sentences is 0.  Counterexample at overlap 0:
two one-word sentences under a one-word budget would then chunk as "a",
"b"; but the Python slice current_chunk_sentences[-0:] is the whole list,
so the entire emitted chunk is carried and the result is "a", "a b". -/
theorem C5_counterexample :
    chunk_text (fun _ => [['a'], ['b']]) ['a', '.', ' ', 'b', '.'] 1 0 =
      [['a'], ['a', ' ', 'b']]
    ∧ [['a'], ['a', ' ', 'b']] ≠ [['a'], ['b']] := by decide

/-- C6: the claim states that every string leaf of the document whose
trimmed length is at least 40 characters is emitted.  Counterexample: a
45-character string sitting directly inside an array is never emitted,
because _extract_texts only tests strings that are dict values and its
recursion into list items returns nothing for a bare string element. -/
theorem C6_counterexample :
    extract_texts (JsonValue.arr [JsonValue.str (List.replicate 45 'x')]) = []
    ∧ (pyStrip (List.replicate 45 'x')).length = 45 := by decide

/-- C9: the claim states every search returns at most k results with all
scores in [-1, 1].  Counterexample: a single-row index holding the unit
vector [1], queried with the unit query [1] and top_k = 2, returns two
results, the second being the faiss padding slot whose score is the lowest
float value, far below -1 (and its row id -1 wraps to the only record). -/
theorem C9_counterexample :
    (QueryEngine.search (K := Int) (fun _ => [1]) id
        ⟨some ⟨1, [[1]]⟩, [⟨JsonValue.null, 0, 1, 1, ['t']⟩]⟩ ['q'] 2).map
      (List.map fun r => r.score) = Except.ok [1, fltLowest]
    ∧ sqNorm [(1 : Int)] = 1
    ∧ (fltLowest : Int) < -1 := by decide

/-- While the accumulated word count plus everything still to come fits the
budget, the chunk loop never emits: it only appends sentences. -/
theorem chunk_fold_no_emit (size overlap : Nat) :
    ∀ (l : List Str) (chunks cur : List Str) (cnt : Nat),
      cnt = (cur.map wordCount).sum →
      (cur.map wordCount).sum + (l.map wordCount).sum ≤ size →
      l.foldl (chunkStep size overlap) ⟨chunks, cur, cnt⟩ =
        ⟨chunks, cur ++ l, cnt + (l.map wordCount).sum⟩ := by
  intro l
  induction l with
  | nil => intro chunks cur cnt h1 h2; simp
  | cons s t ih =>
      intro chunks cur cnt h1 h2
      simp only [List.map_cons, List.sum_cons] at h2
      have hcond : ¬ (size < cnt + wordCount s ∧ cur ≠ []) := by
        rintro ⟨hlt, -⟩
        omega
      simp only [List.foldl_cons, chunkStep, if_neg hcond]
      rw [ih chunks (cur ++ [s]) (cnt + wordCount s) (by simp [h1]) (by simp; omega)]
      simp [List.append_assoc]
      omega

/-- C8: a text whose sentences in total fit the word budget yields exactly
one chunk, the space-join of its sentences (the emission test never fires,
so the loop accumulates everything and the tail flush emits it), and
chunking the empty string yields the empty sequence. -/
theorem C8_small_text_single_chunk (split : Str → List Str) (text : Str)
    (size overlap : Nat) (hne : text ≠ []) (hs : split text ≠ [])
    (hsum : ((split text).map wordCount).sum ≤ size) :
    chunk_text split text size overlap = [joinSp (split text)]
    ∧ chunk_text split [] size overlap = [] := by
  constructor
  · unfold chunk_text
    rw [if_neg hne]
    simp only [chunk_fold_no_emit size overlap (split text) [] [] 0 rfl
      (by simpa using hsum)]
    simp [hs]
  · rfl

/-- Witness for C8 at a concrete two-sentence text within budget. -/
theorem C8_witness :
    (['h', 'i', ' ', 'h', 'o'] : Str) ≠ []
    ∧ ((fun (_ : Str) => [['h', 'i'], ['h', 'o']]) ['h', 'i', ' ', 'h', 'o']) ≠ []
    ∧ ((((fun (_ : Str) => [['h', 'i'], ['h', 'o']]) ['h', 'i', ' ', 'h', 'o']).map
        wordCount).sum ≤ 5)
    ∧ (chunk_text (fun _ => [['h', 'i'], ['h', 'o']]) ['h', 'i', ' ', 'h', 'o'] 5 2 =
        [joinSp [['h', 'i'], ['h', 'o']]]
      ∧ chunk_text (fun _ => [['h', 'i'], ['h', 'o']]) [] 5 2 = []) :=
  ⟨by decide, by decide, by decide,
    C8_small_text_single_chunk _ _ 5 2 (by decide) (by decide) (by decide)⟩

/-- Unflattening inverts flattening when every row has the stated width. -/
theorem splitRows_flatten {α : Type} :
    ∀ (rows : List (List α)) (d : Nat), (∀ r ∈ rows, r.length = d) →
      splitRows rows.length d rows.flatten = rows := by
  intro rows
  induction rows with
  | nil => intro d _; rfl
  | cons r rest ih =>
      intro d h
      have hr : r.length = d := h r (List.mem_cons_self r rest)
      simp only [List.length_cons, List.flatten_cons, splitRows]
      rw [List.take_left' hr, List.drop_left' hr,
        ih d fun x hx => h x (List.mem_cons_of_mem r hx)]

/-- splitRows always recovers the stated row count. -/
theorem splitRows_length {α : Type} (n d : Nat) (l : List α) :
    (splitRows n d l).length = n := by
  induction n generalizing l with
  | zero => rfl
  | succ m ih => simp [splitRows, ih]

/-- C7: saving a built store and loading it back reproduces the identical
index (dimension, ntotal and every vector value exactly, hence within any
floating-point tolerance) and the identical metadata sequence, provided
every stored row has the index dimension (faiss enforces this shape on
add). -/
theorem C7_save_load_roundtrip {K : Type} [LinearOrderedCommRing K]
    (idx : FaissIndex K) (texts : List Str)
    (md : List MetadataRecord) (qe : QueryEngine K)
    (h : ∀ r ∈ idx.xb, r.length = idx.d) :
    load_index (save_index ⟨some idx, texts, md⟩) qe = (⟨some idx, md⟩, true) := by
  have hrt : read_index (write_index idx) = idx := by
    cases idx with
    | mk d xb =>
        simp only [write_index, read_index, FaissIndex.ntotal]
        rw [splitRows_flatten xb d h]
  simp [save_index, load_index, pickle_dump, pickle_load, hrt]

/-- Witness for C7 at a concrete two-row integer index. -/
theorem C7_witness :
    (∀ r ∈ (⟨2, [[1, 0], [0, 1]]⟩ : FaissIndex Int).xb, r.length = 2)
    ∧ load_index
        (save_index (⟨some ⟨2, [[1, 0], [0, 1]]⟩, [['t']],
          [⟨JsonValue.null, 0, 1, 1, ['t']⟩]⟩ : VectorStore Int)) ⟨none, []⟩ =
      ((⟨some ⟨2, [[1, 0], [0, 1]]⟩, [⟨JsonValue.null, 0, 1, 1, ['t']⟩]⟩ : QueryEngine Int),
        true) :=
  ⟨by decide, C7_save_load_roundtrip _ _ _ _ (by decide)⟩


/-- C3 amended: load_index performs no count validation.  Even when the
metadata length differs from the artifact row count, the pair loads
successfully: True is returned, the engine holds the deserialized index
(whose ntotal is the artifact's) and the metadata exactly as read, and the
engine is ready to serve queries. -/
theorem C3_amended_no_validation {K : Type} [LinearOrderedCommRing K]
    (si : SerializedIndex K) (md : List MetadataRecord) (qe : QueryEngine K)
    (hmis : md.length ≠ si.ntotal) :
    (load_index (some (si, md)) qe).2 = true
    ∧ (load_index (some (si, md)) qe).1.index = some (read_index si)
    ∧ (load_index (some (si, md)) qe).1.metadata = md
    ∧ (read_index si).ntotal = si.ntotal :=
  ⟨rfl, rfl, rfl, splitRows_length si.ntotal si.dimension si.data⟩

/-- Witness for C3 amended at a concrete mismatched pair. -/
theorem C3_amended_witness :
    ([] : List MetadataRecord).length ≠ (⟨1, 2, [2, 1]⟩ : SerializedIndex Int).ntotal
    ∧ ((load_index (some ((⟨1, 2, [2, 1]⟩ : SerializedIndex Int), [])) ⟨none, []⟩).2 = true
      ∧ (load_index (some ((⟨1, 2, [2, 1]⟩ : SerializedIndex Int), [])) ⟨none, []⟩).1.index =
          some (read_index ⟨1, 2, [2, 1]⟩)
      ∧ (load_index (some ((⟨1, 2, [2, 1]⟩ : SerializedIndex Int), [])) ⟨none, []⟩).1.metadata = []
      ∧ (read_index (⟨1, 2, [2, 1]⟩ : SerializedIndex Int)).ntotal = 2) :=
  ⟨by decide, C3_amended_no_validation ⟨1, 2, [2, 1]⟩ [] ⟨none, []⟩ (by decide)⟩

theorem appendChunk_fold_metadata {K : Type} [LinearOrderedCommRing K]
    (url : JsonValue) (tc : Nat) :
    ∀ (l : List (Nat × Str)) (vs : VectorStore K),
      (l.foldl (appendChunk url tc) vs).metadata =
        vs.metadata ++ (l.map fun ic => (⟨url, ic.1, tc, ic.2.length, ic.2⟩ : MetadataRecord)) := by
  intro l
  induction l with
  | nil => intro vs; simp
  | cons x t ih =>
      intro vs
      simp only [List.foldl_cons, List.map_cons, ih, appendChunk]
      simp

theorem processText_urls {K : Type} [LinearOrderedCommRing K]
    (split : Str → List Str) (cs : Nat) (url : JsonValue) (vs : VectorStore K) (raw : Str) :
    ∀ r ∈ (processText split cs url vs raw).metadata, r ∈ vs.metadata ∨ r.url = url := by
  intro r hr
  unfold processText at hr
  rw [appendChunk_fold_metadata] at hr
  rcases List.mem_append.mp hr with h | h
  · exact Or.inl h
  · rcases List.mem_map.mp h with ⟨ic, _, rfl⟩
    exact Or.inr rfl

theorem processDoc_urls {K : Type} [LinearOrderedCommRing K]
    (split : Str → List Str) (cs : Nat) (vs : VectorStore K) (doc : List (String × JsonValue)) :
    ∀ r ∈ (processDoc split cs vs doc).metadata, r ∈ vs.metadata ∨ r.url = docUrl doc := by
  unfold processDoc
  generalize extract_texts (JsonValue.obj doc) = ts
  induction ts generalizing vs with
  | nil => intro r hr; exact Or.inl hr
  | cons t rest ih =>
      intro r hr
      simp only [List.foldl_cons] at hr
      rcases ih (processText split cs (docUrl doc) vs t) r hr with h | h
      · exact processText_urls split cs (docUrl doc) vs t r h
      · exact Or.inr h

/-- C10: every metadata record produced from a document carries as url the
value of the Python expression doc.get('url') or doc.get('source_url') or
'Unknown URL'; in particular a present non-empty top-level url string wins,
else a present non-empty source_url string, else the literal 'Unknown URL',
and a document with neither field is still processed (its records all carry
'Unknown URL'). -/
theorem C10_url_provenance {K : Type} [LinearOrderedCommRing K]
    (split : Str → List Str) (cs : Nat) (doc : List (String × JsonValue)) (u : Str) :
    (∀ r ∈ (process_data (K := K) split cs [doc] ⟨none, [], []⟩).metadata,
        r.url = docUrl doc)
    ∧ (dictGet doc "url" = some (JsonValue.str u) → u ≠ [] → docUrl doc = JsonValue.str u)
    ∧ ((dictGet doc "url" = none ∨ dictGet doc "url" = some (JsonValue.str [])) →
        dictGet doc "source_url" = some (JsonValue.str u) → u ≠ [] →
        docUrl doc = JsonValue.str u)
    ∧ ((dictGet doc "url" = none ∨ dictGet doc "url" = some (JsonValue.str [])) →
        (dictGet doc "source_url" = none ∨
          dictGet doc "source_url" = some (JsonValue.str [])) →
        docUrl doc = JsonValue.str "Unknown URL".toList) := by
  refine ⟨?_, ?_, ?_, ?_⟩
  · intro r hr
    simp only [process_data, List.foldl_cons, List.foldl_nil] at hr
    rcases processDoc_urls split cs ⟨none, [], []⟩ doc r hr with h | h
    · simp at h
    · exact h
  · intro hu hne
    simp [docUrl, hu, pyTruthy, hne]
  · rintro (hw | hw) hs hne
    · simp [docUrl, hw, docUrlFallback, hs, pyTruthy, hne]
    · simp [docUrl, hw, docUrlFallback, hs, pyTruthy, hne]
  · rintro (hw | hw) (hs | hs)
    · simp [docUrl, hw, docUrlFallback, hs, pyTruthy]
    · simp [docUrl, hw, docUrlFallback, hs, pyTruthy]
    · simp [docUrl, hw, docUrlFallback, hs, pyTruthy]
    · simp [docUrl, hw, docUrlFallback, hs, pyTruthy]

/-- Witness for C10: a document with only a non-empty source_url resolves
to that source_url. -/
theorem C10_witness :
    dictGet [("source_url", JsonValue.str "https://y".toList)] "url" = none
    ∧ dictGet [("source_url", JsonValue.str "https://y".toList)] "source_url" =
        some (JsonValue.str "https://y".toList)
    ∧ "https://y".toList ≠ []
    ∧ docUrl [("source_url", JsonValue.str "https://y".toList)] =
        JsonValue.str "https://y".toList :=
  ⟨rfl, rfl, by decide,
    (C10_url_provenance (K := Int) (fun _ => []) 500
      [("source_url", JsonValue.str "https://y".toList)] "https://y".toList).2.2.1
      (Or.inl rfl) rfl (by decide)⟩


theorem appendChunk_fold_texts {K : Type} [LinearOrderedCommRing K]
    (url : JsonValue) (tc : Nat) :
    ∀ (l : List (Nat × Str)) (vs : VectorStore K),
      (l.foldl (appendChunk url tc) vs).texts = vs.texts ++ l.map fun ic => ic.2 := by
  intro l
  induction l with
  | nil => intro vs; simp
  | cons x t ih =>
      intro vs
      simp only [List.foldl_cons, List.map_cons, ih, appendChunk]
      simp

theorem processText_align {K : Type} [LinearOrderedCommRing K]
    (split : Str → List Str) (cs : Nat) (url : JsonValue) (vs : VectorStore K) (raw : Str)
    (h : vs.texts.length = vs.metadata.length) :
    (processText split cs url vs raw).texts.length =
      (processText split cs url vs raw).metadata.length := by
  unfold processText
  rw [appendChunk_fold_texts, appendChunk_fold_metadata]
  simp [h]

theorem processDoc_align {K : Type} [LinearOrderedCommRing K]
    (split : Str → List Str) (cs : Nat) (vs : VectorStore K) (doc : List (String × JsonValue))
    (h : vs.texts.length = vs.metadata.length) :
    (processDoc split cs vs doc).texts.length =
      (processDoc split cs vs doc).metadata.length := by
  unfold processDoc
  generalize extract_texts (JsonValue.obj doc) = ts
  induction ts generalizing vs with
  | nil => exact h
  | cons t rest ih =>
      simp only [List.foldl_cons]
      exact ih (processText split cs (docUrl doc) vs t) (processText_align _ _ _ _ _ h)

theorem process_data_align {K : Type} [LinearOrderedCommRing K]
    (split : Str → List Str) (cs : Nat) (docs : List (List (String × JsonValue)))
    (vs : VectorStore K) (h : vs.texts.length = vs.metadata.length) :
    (process_data split cs docs vs).texts.length =
      (process_data split cs docs vs).metadata.length := by
  unfold process_data
  induction docs generalizing vs with
  | nil => exact h
  | cons d rest ih =>
      simp only [List.foldl_cons]
      exact ih (processDoc split cs vs d) (processDoc_align _ _ _ _ h)

theorem create_index_metadata {K : Type} [LinearOrderedCommRing K]
    (encode : List Str → List (List K)) (nrm : List (List K) → List (List K))
    (vs : VectorStore K) :
    (create_index encode nrm vs).metadata = vs.metadata := by
  unfold create_index
  by_cases h : vs.texts = [] <;> simp [h]

/-- C4: the alignment invariant len(metadata) = ntotal holds at every
boundary of the build pipeline: after process_data the texts and metadata
sequences have equal length; create_index leaves the metadata untouched
and, given that the embedding provider returns one vector per text and
normalization is row-wise, builds an index whose ntotal equals the metadata
length; and saving then loading any built store preserves the metadata
length and the row count, so the loaded pair is aligned as well. -/
theorem C4_alignment_invariant {K : Type} [LinearOrderedCommRing K]
    (split : Str → List Str) (cs : Nat) (docs : List (List (String × JsonValue)))
    (encode : List Str → List (List K)) (nrm : List (List K) → List (List K))
    (hEnc : ∀ ts, (encode ts).length = ts.length)
    (hNrm : ∀ m, (nrm m).length = m.length) :
    (process_data (K := K) split cs docs ⟨none, [], []⟩).texts.length =
      (process_data (K := K) split cs docs ⟨none, [], []⟩).metadata.length
    ∧ (create_index encode nrm (process_data split cs docs ⟨none, [], []⟩)).metadata =
        (process_data (K := K) split cs docs ⟨none, [], []⟩).metadata
    ∧ ((process_data (K := K) split cs docs ⟨none, [], []⟩).texts ≠ [] →
        ∃ idx,
          (create_index encode nrm (process_data split cs docs ⟨none, [], []⟩)).index =
            some idx
          ∧ idx.ntotal =
            (create_index encode nrm
              (process_data split cs docs ⟨none, [], []⟩)).metadata.length)
    ∧ (∀ built : VectorStore K, ∀ idx, built.index = some idx → ∀ qe,
        (load_index (save_index built) qe).1.metadata.length = built.metadata.length
        ∧ (load_index (save_index built) qe).1.index = some (read_index (write_index idx))
        ∧ (read_index (write_index idx)).ntotal = idx.ntotal) := by
  have halign := process_data_align (K := K) split cs docs ⟨none, [], []⟩ rfl
  refine ⟨halign, create_index_metadata _ _ _, ?_, ?_⟩
  · intro hne
    unfold create_index
    rw [if_neg hne]
    refine ⟨_, rfl, ?_⟩
    simp [FaissIndex.add, FaissIndex.ntotal, hNrm, hEnc, ← halign]
  · intro built idx hidx qe
    refine ⟨?_, ?_, ?_⟩
    · simp [save_index, hidx, load_index, pickle_dump, pickle_load]
    · simp [save_index, hidx, load_index]
    · simp [read_index, write_index, FaissIndex.ntotal, splitRows_length]


/-- Witness for C4 at a concrete one-document build over integer vectors:
the document has a 45-character body, the injected encoder returns one
1-dimensional vector per text, and normalization is the identity. -/
theorem C4_witness :
    (∀ ts : List Str, ((fun ts : List Str => ts.map fun _ => ([1] : List Int)) ts).length =
        ts.length)
    ∧ (∀ m : List (List Int), (id m).length = m.length)
    ∧ (process_data (K := Int) (fun _ => [['a']]) 500
        [[("body", JsonValue.str (List.replicate 45 'x'))]] ⟨none, [], []⟩).texts ≠ []
    ∧ ((process_data (K := Int) (fun _ => [['a']]) 500
          [[("body", JsonValue.str (List.replicate 45 'x'))]] ⟨none, [], []⟩).texts.length =
        (process_data (K := Int) (fun _ => [['a']]) 500
          [[("body", JsonValue.str (List.replicate 45 'x'))]] ⟨none, [], []⟩).metadata.length
      ∧ (create_index (fun ts : List Str => ts.map fun _ => ([1] : List Int)) id
          (process_data (fun _ => [['a']]) 500
            [[("body", JsonValue.str (List.replicate 45 'x'))]] ⟨none, [], []⟩)).metadata =
          (process_data (K := Int) (fun _ => [['a']]) 500
            [[("body", JsonValue.str (List.replicate 45 'x'))]] ⟨none, [], []⟩).metadata
      ∧ ((process_data (K := Int) (fun _ => [['a']]) 500
            [[("body", JsonValue.str (List.replicate 45 'x'))]] ⟨none, [], []⟩).texts ≠ [] →
          ∃ idx,
            (create_index (fun ts : List Str => ts.map fun _ => ([1] : List Int)) id
              (process_data (fun _ => [['a']]) 500
                [[("body", JsonValue.str (List.replicate 45 'x'))]] ⟨none, [], []⟩)).index =
              some idx
            ∧ idx.ntotal =
              (create_index (fun ts : List Str => ts.map fun _ => ([1] : List Int)) id
                (process_data (fun _ => [['a']]) 500
                  [[("body", JsonValue.str (List.replicate 45 'x'))]]
                  ⟨none, [], []⟩)).metadata.length)
      ∧ (∀ built : VectorStore Int, ∀ idx, built.index = some idx → ∀ qe,
          (load_index (save_index built) qe).1.metadata.length = built.metadata.length
          ∧ (load_index (save_index built) qe).1.index =
              some (read_index (write_index idx))
          ∧ (read_index (write_index idx)).ntotal = idx.ntotal)) :=
  ⟨fun ts => by simp, fun m => rfl, by decide,
    C4_alignment_invariant (fun _ => [['a']]) 500
      [[("body", JsonValue.str (List.replicate 45 'x'))]]
      (fun ts : List Str => ts.map fun _ => ([1] : List Int)) id
      (fun ts => by simp) (fun m => rfl)⟩


/-- The joined-chunk fold is the joinSp image of the sentence-level fold. -/
theorem chunkStep_fold_mirror (size overlap : Nat) :
    ∀ (l : List Str) (chunks : List (List Str)) (cur : List Str) (cnt : Nat),
      l.foldl (chunkStep size overlap) ⟨chunks.map joinSp, cur, cnt⟩ =
        ⟨((l.foldl (chunkStepS size overlap) ⟨chunks, cur, cnt⟩).chunks).map joinSp,
          (l.foldl (chunkStepS size overlap) ⟨chunks, cur, cnt⟩).cur,
          (l.foldl (chunkStepS size overlap) ⟨chunks, cur, cnt⟩).cnt⟩ := by
  intro l
  induction l with
  | nil => intro chunks cur cnt; rfl
  | cons s t ih =>
      intro chunks cur cnt
      simp only [List.foldl_cons, chunkStep, chunkStepS]
      by_cases h : size < cnt + wordCount s ∧ cur ≠ []
      · simp only [if_pos h]
        have hmap : (chunks.map joinSp) ++ [joinSp cur] = (chunks ++ [cur]).map joinSp := by
          simp
        rw [hmap]
        exact ih (chunks ++ [cur]) _ _
      · simp only [if_neg h]
        exact ih chunks (cur ++ [s]) (cnt + wordCount s)

/-- chunk_text emits exactly the space-joins of the sentence runs that
chunkRuns records. -/
theorem chunk_text_eq_map_joinSp (split : Str → List Str) (text : Str)
    (size overlap : Nat) :
    chunk_text split text size overlap = (chunkRuns split text size overlap).map joinSp := by
  unfold chunk_text chunkRuns
  by_cases h : text = []
  · simp [h]
  · rw [if_neg h, if_neg h]
    have hm := chunkStep_fold_mirror size overlap (split text) [] [] 0
    simp only [List.map_nil] at hm
    simp only [hm]
    by_cases hc : (List.foldl (chunkStepS size overlap) ⟨[], [], 0⟩ (split text)).cur = []
    · simp [hc]
    · simp [hc]

/-- Carry invariant of the sentence loop: the emitted chunks are chained by
the carried-overlap relation, and the current chunk extends the carry of
the last emitted chunk. -/
theorem chunkStepS_fold_chain (size overlap : Nat) :
    ∀ (l : List Str) (st : ChunkStateS),
      List.Chain' (fun A B : List Str =>
        B.take (min overlap A.length) = A.drop (A.length - overlap)) st.chunks →
      (∀ A, st.chunks.getLast? = some A →
        st.cur.take (min overlap A.length) = A.drop (A.length - overlap)) →
      List.Chain' (fun A B : List Str =>
          B.take (min overlap A.length) = A.drop (A.length - overlap))
        (l.foldl (chunkStepS size overlap) st).chunks
      ∧ (∀ A, (l.foldl (chunkStepS size overlap) st).chunks.getLast? = some A →
          (l.foldl (chunkStepS size overlap) st).cur.take (min overlap A.length) =
            A.drop (A.length - overlap)) := by
  intro l
  induction l with
  | nil => intro st h1 h2; exact ⟨h1, h2⟩
  | cons s t ih =>
      intro st h1 h2
      simp only [List.foldl_cons, chunkStepS]
      by_cases h : size < st.cnt + wordCount s ∧ st.cur ≠ []
      · simp only [if_pos h]
        apply ih
        · rw [List.chain'_append]
          refine ⟨h1, List.chain'_singleton _, ?_⟩
          intro x hx y hy
          simp only [List.head?_cons, Option.mem_def, Option.some.injEq] at hy
          subst hy
          exact h2 x hx
        · intro A hA
          rw [List.getLast?_concat] at hA
          cases hA
          by_cases hov : overlap = 0
          · subst hov
            simp [List.drop_length]
          · have hcar : pySliceLast overlap st.cur = st.cur.drop (st.cur.length - overlap) := by
              unfold pySliceLast
              rw [if_neg hov]
            rw [hcar, List.take_append_eq_append_take]
            have hlen : (st.cur.drop (st.cur.length - overlap)).length =
                min overlap st.cur.length := by
              rw [List.length_drop]
              omega
            simp [hlen]
      · simp only [if_neg h]
        apply ih
        · exact h1
        · intro A hA
          have hx := h2 A hA
          have hXlen : (A.drop (A.length - overlap)).length = min overlap A.length := by
            rw [List.length_drop]
            omega
          have hk : min overlap A.length ≤ st.cur.length := by
            have hc := congrArg List.length hx
            rw [List.length_take, hXlen] at hc
            omega
          rw [List.take_append_eq_append_take]
          rw [Nat.sub_eq_zero_of_le hk]
          simp [hx]

/-- C5 amended: for overlap_sentences at least 1, consecutive sentence-level
chunks overlap as the claim says for positive overlap: the leading
min(overlap, len(C_i)) sentences of C_{i+1} are exactly the trailing
overlap sentences of C_i; and chunk_text emits precisely the space-joins of
those sentence-level chunks. -/
theorem C5_amended_overlap_chain (split : Str → List Str) (text : Str)
    (size overlap : Nat) (hov : 1 ≤ overlap) :
    List.Chain' (fun A B : List Str =>
        B.take (min overlap A.length) = A.drop (A.length - overlap))
      (chunkRuns split text size overlap)
    ∧ chunk_text split text size overlap =
        (chunkRuns split text size overlap).map joinSp := by
  refine ⟨?_, chunk_text_eq_map_joinSp split text size overlap⟩
  unfold chunkRuns
  by_cases h : text = []
  · simp [h]
  · rw [if_neg h]
    have hc := chunkStepS_fold_chain size overlap (split text) ⟨[], [], 0⟩
      List.chain'_nil (by intro A hA; simp at hA)
    by_cases hcur : (List.foldl (chunkStepS size overlap) ⟨[], [], 0⟩ (split text)).cur = []
    · simp [hcur]
      exact hc.1
    · simp only [ne_eq, hcur, not_false_eq_true, if_pos]
      rw [List.chain'_append]
      refine ⟨hc.1, List.chain'_singleton _, ?_⟩
      intro x hx y hy
      simp only [List.head?_cons, Option.mem_def, Option.some.injEq] at hy
      subst hy
      exact hc.2 x hx

/-- Witness for C5 amended at overlap 1 on a concrete three-sentence text. -/
theorem C5_amended_witness :
    1 ≤ 1
    ∧ (List.Chain' (fun A B : List Str =>
          B.take (min 1 A.length) = A.drop (A.length - 1))
        (chunkRuns (fun _ => [['a'], ['b'], ['c']]) ['a', ' ', 'b', ' ', 'c'] 1 1)
      ∧ chunk_text (fun _ => [['a'], ['b'], ['c']]) ['a', ' ', 'b', ' ', 'c'] 1 1 =
          (chunkRuns (fun _ => [['a'], ['b'], ['c']]) ['a', ' ', 'b', ' ', 'c'] 1 1).map
            joinSp) :=
  ⟨by decide,
    C5_amended_overlap_chain (fun _ => [['a'], ['b'], ['c']]) ['a', ' ', 'b', ' ', 'c']
      1 1 (by decide)⟩


mutual

theorem extract_texts_sound : ∀ (v : JsonValue), ∀ t ∈ extract_texts v, 40 ≤ t.length
  | JsonValue.null => by intro t ht; simp [extract_texts] at ht
  | JsonValue.bool b => by intro t ht; simp [extract_texts] at ht
  | JsonValue.num q => by intro t ht; simp [extract_texts] at ht
  | JsonValue.str s => by intro t ht; simp [extract_texts] at ht
  | JsonValue.arr items => by
      intro t ht
      simp only [extract_texts] at ht
      exact extractFromItems_sound items t ht
  | JsonValue.obj fields => by
      intro t ht
      simp only [extract_texts] at ht
      exact extractFromFields_sound fields t ht

theorem extractFromItems_sound :
    ∀ (l : List JsonValue), ∀ t ∈ extractFromItems l, 40 ≤ t.length
  | [] => by intro t ht; simp [extractFromItems] at ht
  | v :: rest => by
      intro t ht
      simp only [extractFromItems] at ht
      rcases List.mem_append.mp ht with h | h
      · exact extract_texts_sound v t h
      · exact extractFromItems_sound rest t h

theorem extractFromFields_sound :
    ∀ (l : List (String × JsonValue)), ∀ t ∈ extractFromFields l, 40 ≤ t.length
  | [] => by intro t ht; simp [extractFromFields] at ht
  | (k, JsonValue.str v) :: rest => by
      intro t ht
      simp only [extractFromFields] at ht
      rcases List.mem_append.mp ht with h | h
      · by_cases h40 : 40 ≤ (pyStrip v).length
        · rw [if_pos h40] at h
          rw [List.mem_singleton] at h
          subst h
          exact h40
        · rw [if_neg h40] at h
          simp at h
      · exact extractFromFields_sound rest t h
  | (k, JsonValue.null) :: rest => by
      intro t ht
      simp only [extractFromFields] at ht
      rcases List.mem_append.mp ht with h | h
      · exact extract_texts_sound JsonValue.null t h
      · exact extractFromFields_sound rest t h
  | (k, JsonValue.bool b) :: rest => by
      intro t ht
      simp only [extractFromFields] at ht
      rcases List.mem_append.mp ht with h | h
      · exact extract_texts_sound (JsonValue.bool b) t h
      · exact extractFromFields_sound rest t h
  | (k, JsonValue.num q) :: rest => by
      intro t ht
      simp only [extractFromFields] at ht
      rcases List.mem_append.mp ht with h | h
      · exact extract_texts_sound (JsonValue.num q) t h
      · exact extractFromFields_sound rest t h
  | (k, JsonValue.arr items) :: rest => by
      intro t ht
      simp only [extractFromFields] at ht
      rcases List.mem_append.mp ht with h | h
      · exact extract_texts_sound (JsonValue.arr items) t h
      · exact extractFromFields_sound rest t h
  | (k, JsonValue.obj fields2) :: rest => by
      intro t ht
      simp only [extractFromFields] at ht
      rcases List.mem_append.mp ht with h | h
      · exact extract_texts_sound (JsonValue.obj fields2) t h
      · exact extractFromFields_sound rest t h

end


theorem extract_texts_arr_strings :
    ∀ (items : List Str), extract_texts (JsonValue.arr (items.map JsonValue.str)) = [] := by
  intro items
  simp only [extract_texts]
  induction items with
  | nil => rfl
  | cons s rest ih =>
      simp only [List.map_cons, extractFromItems, extract_texts]
      exact ih

theorem extract_texts_flat_obj :
    ∀ (fields : List (String × Str)),
      extract_texts (JsonValue.obj (fields.map fun p => (p.1, JsonValue.str p.2))) =
        (fields.map fun p => pyStrip p.2).filter fun t => 40 ≤ t.length := by
  intro fields
  simp only [extract_texts]
  induction fields with
  | nil => rfl
  | cons p rest ih =>
      simp only [List.map_cons, extractFromFields, ih, List.filter_cons]
      by_cases h40 : 40 ≤ (pyStrip p.2).length
      · simp [h40]
      · simp [h40]

/-- C6 amended: _extract_texts emits only strings of trimmed length at
least 40 (soundness over arbitrary nested documents); on an object whose
values are all strings it emits exactly the trimmed values whose length is
at least 40, in stable key order; and a string leaf that is an array
element is always discarded, whatever its length. -/
theorem C6_amended_dict_values_only :
    (∀ (v : JsonValue), ∀ t ∈ extract_texts v, 40 ≤ t.length)
    ∧ (∀ (fields : List (String × Str)),
        extract_texts (JsonValue.obj (fields.map fun p => (p.1, JsonValue.str p.2))) =
          (fields.map fun p => pyStrip p.2).filter fun t => 40 ≤ t.length)
    ∧ (∀ (items : List Str), extract_texts (JsonValue.arr (items.map JsonValue.str)) = []) :=
  ⟨extract_texts_sound, extract_texts_flat_obj, extract_texts_arr_strings⟩

/-- Witness for C6 amended at a concrete two-field object with one long and
one short value. -/
theorem C6_amended_witness :
    (List.replicate 45 'x' ∈
        extract_texts (JsonValue.obj [("a", JsonValue.str (List.replicate 45 'x'))])
      ∧ 40 ≤ (List.replicate 45 'x' : Str).length)
    ∧ extract_texts (JsonValue.obj
          [("long", JsonValue.str (List.replicate 45 'x')), ("id", JsonValue.str ['7'])]) =
        [List.replicate 45 'x'] :=
  ⟨⟨by decide, C6_amended_dict_values_only.1
      (JsonValue.obj [("a", JsonValue.str (List.replicate 45 'x'))])
      (List.replicate 45 'x') (by decide)⟩,
    by
      have h := C6_amended_dict_values_only.2.1
        [("long", List.replicate 45 'x'), ("id", ['7'])]
      simp only [List.map_cons, List.map_nil] at h
      rw [h]
      decide⟩


theorem sqNorm_nonneg {K : Type} [LinearOrderedCommRing K] (a : List K) : 0 ≤ sqNorm a := by
  unfold sqNorm
  apply List.sum_nonneg
  intro x hx
  rcases List.mem_map.mp hx with ⟨y, _, rfl⟩
  exact mul_self_nonneg y

theorem dot_nil {K : Type} [LinearOrderedCommRing K] (b : List K) : dot [] b = 0 := rfl

theorem dot_cons_nil {K : Type} [LinearOrderedCommRing K] (x : K) (a : List K) :
    dot (x :: a) [] = 0 := rfl

theorem dot_cons_cons {K : Type} [LinearOrderedCommRing K] (x y : K) (a b : List K) :
    dot (x :: a) (y :: b) = x * y + dot a b := rfl

theorem sqNorm_cons {K : Type} [LinearOrderedCommRing K] (x : K) (a : List K) :
    sqNorm (x :: a) = x * x + sqNorm a := rfl

/-- Cross-term bound: twice the mixed product is dominated by the weighted
squared norms (a sum of squares argument, division-free). -/
theorem dot_cross_term {K : Type} [LinearOrderedCommRing K] :
    ∀ (a b : List K) (x y : K),
      2 * (x * y) * dot a b ≤ x * x * sqNorm b + y * y * sqNorm a := by
  intro a
  induction a with
  | nil =>
      intro b x y
      rw [dot_nil]
      have hb := sqNorm_nonneg b
      nlinarith [sq_nonneg x, sq_nonneg y, sqNorm_nonneg ([] : List K)]
  | cons a0 a ih =>
      intro b x y
      cases b with
      | nil =>
          rw [dot_cons_nil]
          have ha := sqNorm_nonneg (a0 :: a)
          nlinarith [sq_nonneg x, sq_nonneg y, sqNorm_nonneg ([] : List K)]
      | cons b0 b =>
          have hIH := ih b x y
          rw [dot_cons_cons, sqNorm_cons, sqNorm_cons]
          nlinarith [sq_nonneg (x * b0 - y * a0), hIH]

/-- Discrete Cauchy-Schwarz for the truncating inner product. -/
theorem dot_sq_le {K : Type} [LinearOrderedCommRing K] :
    ∀ (a b : List K), dot a b * dot a b ≤ sqNorm a * sqNorm b := by
  intro a
  induction a with
  | nil =>
      intro b
      rw [dot_nil]
      simp only [mul_zero, zero_mul]
      exact mul_nonneg (sqNorm_nonneg []) (sqNorm_nonneg b)
  | cons x a ih =>
      intro b
      cases b with
      | nil =>
          rw [dot_cons_nil]
          simp only [mul_zero, zero_mul]
          exact mul_nonneg (sqNorm_nonneg (x :: a)) (sqNorm_nonneg [])
      | cons y b =>
          have hD := ih b
          have hcross := dot_cross_term a b x y
          rw [dot_cons_cons, sqNorm_cons, sqNorm_cons]
          nlinarith [hD, hcross]

/-- Inner products of unit vectors lie in the closed interval [-1, 1]. -/
theorem dot_unit_bound {K : Type} [LinearOrderedCommRing K] (q r : List K)
    (hq : sqNorm q = 1) (hr : sqNorm r = 1) : -1 ≤ dot q r ∧ dot q r ≤ 1 := by
  have h := dot_sq_le q r
  rw [hq, hr, mul_one] at h
  constructor
  · nlinarith [sq_nonneg (dot q r + 1)]
  · nlinarith [sq_nonneg (dot q r - 1)]


/-- With k at most ntotal, the faiss search is exactly the first k entries
of the full ranking: no padding slot appears, and exactly k pairs return. -/
theorem FaissIndex.search_eq_of_le {K : Type} [LinearOrderedCommRing K]
    (idx : FaissIndex K) (q : List K) (k : Nat) (hk : k ≤ idx.ntotal) :
    idx.search q k =
      ((idx.xb.enum.map fun p => (dot q p.2, (p.1 : Int))).insertionSort resGE).take k
    ∧ (idx.search q k).length = k := by
  have hlen : ((idx.xb.enum.map fun p => (dot q p.2, (p.1 : Int))).insertionSort
      resGE).length = idx.ntotal := by
    rw [List.length_insertionSort, List.length_map, List.enum_length]
    rfl
  have htake : (((idx.xb.enum.map fun p => (dot q p.2, (p.1 : Int))).insertionSort
      resGE).take k).length = k := by
    rw [List.length_take, hlen]
    omega
  have heq : idx.search q k =
      ((idx.xb.enum.map fun p => (dot q p.2, (p.1 : Int))).insertionSort resGE).take k := by
    unfold FaissIndex.search
    simp only [htake]
    simp
  exact ⟨heq, by rw [heq, htake]⟩

theorem snd_mem_of_mem_enumFrom {α : Type} :
    ∀ (n : Nat) (l : List α) (x : Nat × α), x ∈ List.enumFrom n l → x.2 ∈ l := by
  intro n l
  induction l generalizing n with
  | nil => intro x hx; simp at hx
  | cons a t ih =>
      intro x hx
      rw [List.enumFrom_cons] at hx
      rcases List.mem_cons.mp hx with h | h
      · subst h; exact List.mem_cons_self a t
      · exact List.mem_cons_of_mem a (ih (n + 1) x h)

/-- Every pair a bounded search returns carries the inner product of the
query with some stored row, and a row id in [0, ntotal). -/
theorem search_mem_origin {K : Type} [LinearOrderedCommRing K]
    (idx : FaissIndex K) (q : List K) (k : Nat) (hk : k ≤ idx.ntotal) :
    ∀ p ∈ idx.search q k,
      (0 ≤ p.2 ∧ p.2 < (idx.ntotal : Int)) ∧ ∃ r ∈ idx.xb, p.1 = dot q r := by
  intro p hp
  rw [(FaissIndex.search_eq_of_le idx q k hk).1] at hp
  have hp2 := (List.perm_insertionSort resGE _).mem_iff.mp (List.mem_of_mem_take hp)
  rcases List.mem_map.mp hp2 with ⟨⟨i, r⟩, hmem, rfl⟩
  have hir : idx.xb[i]? = some r := by
    have := List.mk_mem_enum_iff_getElem?.mp hmem
    exact this
  have hi : i < idx.xb.length := by
    by_contra hcon
    rw [List.getElem?_eq_none (Nat.le_of_not_lt hcon)] at hir
    cases hir
  have hrmem : r ∈ idx.xb := by
    have := List.getElem?_eq_getElem hi
    rw [this] at hir
    cases hir
    exact List.getElem_mem hi
  refine ⟨⟨?_, ?_⟩, r, hrmem, rfl⟩
  · show (0 : Int) ≤ (i : Int)
    exact Int.natCast_nonneg i
  · show (i : Int) < (idx.ntotal : Int)
    unfold FaissIndex.ntotal
    exact_mod_cast hi

/-- The bounded search output is sorted: descending scores, ties by
ascending row id. -/
theorem search_sorted_of_le {K : Type} [LinearOrderedCommRing K]
    (idx : FaissIndex K) (q : List K) (k : Nat) (hk : k ≤ idx.ntotal) :
    List.Sorted resGE (idx.search q k) := by
  rw [(FaissIndex.search_eq_of_le idx q k hk).1]
  exact List.Pairwise.sublist (List.take_sublist k _)
    (List.sorted_insertionSort resGE _)


theorem countP_enumFrom_snd {α : Type} (p : α → Bool) :
    ∀ (n : Nat) (l : List α), (List.enumFrom n l).countP (fun x => p x.2) = l.countP p := by
  intro n l
  induction l generalizing n with
  | nil => rfl
  | cons a t ih =>
      rw [List.enumFrom_cons, List.countP_cons, List.countP_cons, ih]

/-- On pairs whose row ids are all non-negative, the result loop never
fails: it returns one result per pair whose id passes the bound check (the
others are silently skipped), each resolving to a record of the metadata
list and carrying the score of its pair. -/
theorem collectResults_nonneg {K : Type} [LinearOrderedCommRing K]
    (md : List MetadataRecord) :
    ∀ (l : List (Nat × (K × Int))), (∀ x ∈ l, 0 ≤ x.2.2) →
      ∃ rs, collectResults md l = Except.ok rs
        ∧ rs.length = l.countP (fun x => decide (x.2.2 < (md.length : Int)))
        ∧ (∀ r ∈ rs, r.metadata ∈ md ∧ ∃ x ∈ l, r.score = x.2.1) := by
  intro l
  induction l with
  | nil => exact fun _ => ⟨[], rfl, rfl, by simp⟩
  | cons x rest ih =>
      intro hpos
      obtain ⟨i, score, ridx⟩ := x
      have hx0 : (0 : Int) ≤ ridx := hpos _ (List.mem_cons_self _ _)
      obtain ⟨rs, hrs, hlen, hmem⟩ := ih fun y hy => hpos y (List.mem_cons_of_mem _ hy)
      by_cases hin : ridx < (md.length : Int)
      · have hnat : ridx.toNat < md.length := (Int.toNat_lt hx0).mpr hin
        have hget : pyGetIdx md ridx = some (md.get ⟨ridx.toNat, hnat⟩) := by
          unfold pyGetIdx
          rw [if_pos hx0, List.get?_eq_getElem?, List.getElem?_eq_getElem hnat]
          rfl
        refine ⟨⟨i + 1, score, md.get ⟨ridx.toNat, hnat⟩,
          (md.get ⟨ridx.toNat, hnat⟩).text⟩ :: rs, ?_, ?_, ?_⟩
        · simp only [collectResults, if_pos hin, hget, hrs]
        · rw [List.countP_cons, List.length_cons, hlen]
          simp [hin]
        · intro r hr
          rcases List.mem_cons.mp hr with h | h
          · subst h
            refine ⟨List.get_mem md _ _, (i, score, ridx), List.mem_cons_self _ _, rfl⟩
          · obtain ⟨h1, y, hy, h2⟩ := hmem r h
            exact ⟨h1, y, List.mem_cons_of_mem _ hy, h2⟩
      · refine ⟨rs, ?_, ?_, ?_⟩
        · simp only [collectResults, if_neg hin, hrs]
        · rw [List.countP_cons, hlen]
          simp [hin]
        · intro r hr
          obtain ⟨h1, y, hy, h2⟩ := hmem r hr
          exact ⟨h1, y, List.mem_cons_of_mem _ hy, h2⟩


/-- C1 amended: for top_k within ntotal, a query never hard-fails on
metadata desynchronization: it returns ok, every returned result resolves a
record inside the metadata list, and the result count equals the number of
ranked rows whose id passes the idx < len(metadata) check, the others being
silently dropped. -/
theorem C1_amended_silent_skip {K : Type} [LinearOrderedCommRing K]
    (enc : Str → List K) (nrm : List K → List K) (idx : FaissIndex K)
    (md : List MetadataRecord) (q : Str) (k : Nat) (hk : k ≤ idx.ntotal) :
    ∃ rs, QueryEngine.search enc nrm ⟨some idx, md⟩ q k = Except.ok rs
      ∧ (∀ r ∈ rs, r.metadata ∈ md)
      ∧ rs.length = (idx.search (nrm (enc q)) k).countP
          (fun pr => decide (pr.2 < (md.length : Int))) := by
  obtain ⟨rs, hok, hlen, hmem⟩ := collectResults_nonneg md (idx.search (nrm (enc q)) k).enum
    (fun x hx =>
      (search_mem_origin idx (nrm (enc q)) k hk x.2 (snd_mem_of_mem_enumFrom 0 _ x hx)).1.1)
  refine ⟨rs, ?_, fun r hr => (hmem r hr).1, ?_⟩
  · simp only [QueryEngine.search]
    exact hok
  · rw [hlen]
    exact countP_enumFrom_snd (fun pr => decide (pr.2 < (md.length : Int))) 0
      (idx.search (nrm (enc q)) k)

/-- Witness for C1 amended on a 2-row index with a single metadata record. -/
theorem C1_amended_witness :
    2 ≤ (⟨1, [[2], [1]]⟩ : FaissIndex Int).ntotal
    ∧ ∃ rs, QueryEngine.search (K := Int) (fun _ => [1]) id
          ⟨some ⟨1, [[2], [1]]⟩, [⟨JsonValue.null, 0, 1, 1, ['t']⟩]⟩ ['q'] 2 = Except.ok rs
        ∧ (∀ r ∈ rs, r.metadata ∈ [⟨JsonValue.null, 0, 1, 1, ['t']⟩])
        ∧ rs.length =
            ((⟨1, [[2], [1]]⟩ : FaissIndex Int).search (id ((fun _ => [1]) ['q'])) 2).countP
              (fun pr => decide (pr.2 <
                (([⟨JsonValue.null, 0, 1, 1, ['t']⟩] : List MetadataRecord).length : Int))) :=
  ⟨by decide, C1_amended_silent_skip _ _ _ _ _ _ (by decide)⟩

/-- C9 amended: with top_k at most ntotal, unit-normalized stored rows and
query, and aligned metadata, the ranked pairs are exactly top_k many,
sorted by descending score with ties by ascending row id, every score the
inner product of the query with some stored row and hence in [-1, 1]; the
query then returns ok with exactly top_k results whose scores lie in
[-1, 1]. -/
theorem C9_amended_search_properties {K : Type} [LinearOrderedCommRing K]
    (idx : FaissIndex K) (q : List K) (k : Nat) (md : List MetadataRecord)
    (enc : Str → List K) (nrm : List K → List K) (query : Str)
    (hk : k ≤ idx.ntotal) (hmd : md.length = idx.ntotal)
    (hqv : nrm (enc query) = q)
    (hq : sqNorm q = 1) (hrows : ∀ r ∈ idx.xb, sqNorm r = 1) :
    (idx.search q k).length = k
    ∧ List.Sorted resGE (idx.search q k)
    ∧ (∀ p ∈ idx.search q k, (-1 ≤ p.1 ∧ p.1 ≤ 1) ∧ ∃ r ∈ idx.xb, p.1 = dot q r)
    ∧ ∃ rs, QueryEngine.search enc nrm ⟨some idx, md⟩ query k = Except.ok rs
        ∧ rs.length = k ∧ ∀ r ∈ rs, -1 ≤ r.score ∧ r.score ≤ 1 := by
  have hsc : ∀ p ∈ idx.search q k, (-1 ≤ p.1 ∧ p.1 ≤ 1) ∧ ∃ r ∈ idx.xb, p.1 = dot q r := by
    intro p hp
    obtain ⟨hbound, r, hrmem, hpr⟩ := search_mem_origin idx q k hk p hp
    have hb := dot_unit_bound q r hq (hrows r hrmem)
    exact ⟨by rw [hpr]; exact hb, r, hrmem, hpr⟩
  refine ⟨(FaissIndex.search_eq_of_le idx q k hk).2, search_sorted_of_le idx q k hk,
    hsc, ?_⟩
  obtain ⟨rs, hok, hlen, hmem⟩ := collectResults_nonneg md (idx.search q k).enum
    (fun x hx =>
      (search_mem_origin idx q k hk x.2 (snd_mem_of_mem_enumFrom 0 _ x hx)).1.1)
  refine ⟨rs, ?_, ?_, ?_⟩
  · simp only [QueryEngine.search, hqv]
    exact hok
  · rw [hlen]
    have h1 : (idx.search q k).enum.countP (fun x => decide (x.2.2 < (md.length : Int))) =
        (idx.search q k).countP (fun pr => decide (pr.2 < (md.length : Int))) :=
      countP_enumFrom_snd (fun pr => decide (pr.2 < (md.length : Int))) 0 (idx.search q k)
    rw [h1]
    rw [List.countP_eq_length.mpr, (FaissIndex.search_eq_of_le idx q k hk).2]
    intro pr hpr
    have h2 := (search_mem_origin idx q k hk pr hpr).1.2
    simp only [hmd, decide_eq_true_eq]
    exact h2
  · intro r hr
    obtain ⟨-, x, hx, hscore⟩ := hmem r hr
    have hb := (hsc x.2 (snd_mem_of_mem_enumFrom 0 _ x hx)).1
    rw [hscore]
    exact hb

/-- Witness for C9 amended on a 2-row identity-basis index with an aligned
metadata pair, top_k 1. -/
theorem C9_amended_witness :
    1 ≤ (⟨2, [[1, 0], [0, 1]]⟩ : FaissIndex Int).ntotal
    ∧ ([⟨JsonValue.null, 0, 1, 1, ['t']⟩, ⟨JsonValue.null, 1, 2, 1, ['u']⟩] :
        List MetadataRecord).length = (⟨2, [[1, 0], [0, 1]]⟩ : FaissIndex Int).ntotal
    ∧ id ((fun _ => [1, 0]) ['q']) = ([1, 0] : List Int)
    ∧ sqNorm ([1, 0] : List Int) = 1
    ∧ (∀ r ∈ (⟨2, [[1, 0], [0, 1]]⟩ : FaissIndex Int).xb, sqNorm r = 1)
    ∧ (((⟨2, [[1, 0], [0, 1]]⟩ : FaissIndex Int).search [1, 0] 1).length = 1
      ∧ List.Sorted resGE ((⟨2, [[1, 0], [0, 1]]⟩ : FaissIndex Int).search [1, 0] 1)
      ∧ (∀ p ∈ (⟨2, [[1, 0], [0, 1]]⟩ : FaissIndex Int).search [1, 0] 1,
          (-1 ≤ p.1 ∧ p.1 ≤ 1) ∧ ∃ r ∈ (⟨2, [[1, 0], [0, 1]]⟩ : FaissIndex Int).xb,
            p.1 = dot [1, 0] r)
      ∧ ∃ rs, QueryEngine.search (K := Int) (fun _ => [1, 0]) id
            ⟨some ⟨2, [[1, 0], [0, 1]]⟩,
              [⟨JsonValue.null, 0, 1, 1, ['t']⟩, ⟨JsonValue.null, 1, 2, 1, ['u']⟩]⟩
            ['q'] 1 = Except.ok rs
          ∧ rs.length = 1 ∧ ∀ r ∈ rs, -1 ≤ r.score ∧ r.score ≤ 1) :=
  ⟨by decide, by decide, rfl, by decide, by decide,
    C9_amended_search_properties ⟨2, [[1, 0], [0, 1]]⟩ [1, 0] 1
      [⟨JsonValue.null, 0, 1, 1, ['t']⟩, ⟨JsonValue.null, 1, 2, 1, ['u']⟩]
      (fun _ => [1, 0]) id ['q'] (by decide) (by decide) rfl (by decide) (by decide)⟩

end NeuroForge
